import Mathlib

/-!
Verification of the doubly-linked list with cursors implemented in
`src/sixth.rs`.  The Rust code works on raw `NonNull<Node<T>>` pointers; we
embed it shallowly with an explicit heap: node addresses are natural numbers,
the heap maps an address to an optional node, and every operation of the
source is translated line by line into a state-passing Lean function.
Operations that in Rust would dereference a possibly dangling pointer or
`unwrap` an `Option` return `Option` (a `none` result models UB / panic).
`usize` arithmetic is modelled by `Nat`; the only subtractions performed by
the source underflow exactly when its own invariants are already broken.
-/

namespace Sixth

/-- Node addresses.  The Rust code uses `NonNull<Node<T>>` pointers. -/
abbrev Addr := Nat

/-- Models `Node<T>` from sixth.rs: `front`/`back` are the prev/next links. -/
structure Node (α : Type) where
  front : Option Addr
  back : Option Addr
  elem : α
deriving DecidableEq

/-- The heap of allocated nodes.  `size` is the next fresh address. -/
structure Heap (α : Type) where
  size : Nat
  node : Addr → Option (Node α)

/-- The empty heap. -/
def Heap.empty : Heap α := ⟨0, fun _ => none⟩

/-- Models `Box::new` + `Box::into_raw`: allocate a fresh node. -/
def Heap.alloc (h : Heap α) (nd : Node α) : Addr × Heap α :=
  (h.size, ⟨h.size + 1, fun x => if x = h.size then some nd else h.node x⟩)

/-- Models `Box::from_raw` + implicit drop: deallocate the node at `a`. -/
def Heap.free (h : Heap α) (a : Addr) : Heap α :=
  ⟨h.size, fun x => if x = a then none else h.node x⟩

/-- Overwrite the node stored at `a` (it must already exist). -/
def Heap.set (h : Heap α) (a : Addr) (nd : Node α) : Heap α :=
  ⟨h.size, fun x => if x = a then some nd else h.node x⟩

/-- Models `(*a.as_ptr()).front = v`. -/
def Heap.setFront (h : Heap α) (a : Addr) (v : Option Addr) : Heap α :=
  match h.node a with
  | some nd => h.set a { nd with front := v }
  | none => h

/-- Models `(*a.as_ptr()).back = v`. -/
def Heap.setBack (h : Heap α) (a : Addr) (v : Option Addr) : Heap α :=
  match h.node a with
  | some nd => h.set a { nd with back := v }
  | none => h

/-- The `LinkedList<T>` header: `front`, `back` and the cached `len`.
The nodes themselves live in the shared heap. -/
structure LinkedList where
  front : Option Addr
  back : Option Addr
  len : Nat
deriving DecidableEq

/-- Models `LinkedList::new`. -/
def LinkedList.new : LinkedList := ⟨none, none, 0⟩

/-- Models `LinkedList::push_front`. -/
def pushFront (h : Heap α) (l : LinkedList) (elem : α) : Heap α × LinkedList :=
  let (new, h) := h.alloc ⟨none, none, elem⟩
  match l.front with
  | some old =>
    let h := h.setFront old (some new)
    let h := h.setBack new (some old)
    (h, { l with front := some new, len := l.len + 1 })
  | none =>
    (h, { front := some new, back := some new, len := l.len + 1 })

/-- Models `LinkedList::push_back`. -/
def pushBack (h : Heap α) (l : LinkedList) (elem : α) : Heap α × LinkedList :=
  let (new, h) := h.alloc ⟨none, none, elem⟩
  match l.back with
  | some old =>
    let h := h.setBack old (some new)
    let h := h.setFront new (some old)
    (h, { l with back := some new, len := l.len + 1 })
  | none =>
    (h, { front := some new, back := some new, len := l.len + 1 })

/-- Models `LinkedList::pop_front`.  The outer `Option` is `none` when the code
would dereference a dangling front pointer. -/
def popFront (h : Heap α) (l : LinkedList) :
    Option (Option α × Heap α × LinkedList) :=
  match l.front with
  | none => some (none, h, l)
  | some a =>
    match h.node a with
    | none => none
    | some boxed =>
      let h := h.free a
      match boxed.back with
      | some new =>
        let h := h.setFront new none
        some (some boxed.elem, h, { l with front := boxed.back, len := l.len - 1 })
      | none =>
        some (some boxed.elem, h, ⟨boxed.back, none, l.len - 1⟩)

/-- Models `LinkedList::pop_back`. -/
def popBack (h : Heap α) (l : LinkedList) :
    Option (Option α × Heap α × LinkedList) :=
  match l.back with
  | none => some (none, h, l)
  | some a =>
    match h.node a with
    | none => none
    | some boxed =>
      let h := h.free a
      match boxed.front with
      | some new =>
        let h := h.setBack new none
        some (some boxed.elem, h, { l with back := boxed.front, len := l.len - 1 })
      | none =>
        some (some boxed.elem, h, ⟨none, boxed.front, l.len - 1⟩)

/-- Models `LinkedList::clear`: `while let Some(_) = self.pop_front() {}`,
with explicit fuel (the loop is unbounded in the source). -/
def clearFuel (fuel : Nat) (h : Heap α) (l : LinkedList) :
    Option (Heap α × LinkedList) :=
  match fuel with
  | 0 => none
  | fuel + 1 =>
    match popFront h l with
    | none => none
    | some (none, h, l) => some (h, l)
    | some (some _, h, l) => clearFuel fuel h l

/-- Models `Drop for LinkedList` = `clear`; every reachable chain is shorter than
`h.size + 1`, so that much fuel suffices for well-formed lists. -/
def dropList (h : Heap α) (l : LinkedList) : Option (Heap α) :=
  (clearFuel (h.size + 1) h l).map (·.1)

/-- Models `LinkedList::cursor_mut`: a fresh cursor, at the ghost position.
The cursor state is the pair `(cur, index)`. -/
def cursorMut (_l : LinkedList) : Option Addr × Option Nat := (none, none)

/-- Models `CursorMut::index`. -/
def indexFn (index : Option Nat) : Option Nat := index

/-- Models `CursorMut::current`. -/
def current (h : Heap α) (cur : Option Addr) : Option α :=
  cur.bind fun c => (h.node c).map (·.elem)

/-- Models `CursorMut::move_next`. -/
def moveNext (h : Heap α) (l : LinkedList) (cur : Option Addr)
    (index : Option Nat) : Option (Option Addr × Option Nat) :=
  match cur with
  | some c =>
    match h.node c with
    | none => none
    | some nd =>
      match nd.back with
      | some nxt =>
        match index with
        | some i => some (some nxt, some (i + 1))
        | none => none
      | none => some (none, none)
  | none =>
    if l.len ≠ 0 then some (l.front, some 0) else some (none, index)

/-- Models `CursorMut::move_prev`. -/
def movePrev (h : Heap α) (l : LinkedList) (cur : Option Addr)
    (index : Option Nat) : Option (Option Addr × Option Nat) :=
  match cur with
  | some c =>
    match h.node c with
    | none => none
    | some nd =>
      match nd.front with
      | some prv =>
        match index with
        | some i => some (some prv, some (i - 1))
        | none => none
      | none => some (none, none)
  | none =>
    if l.len ≠ 0 then some (l.back, some (l.len - 1)) else some (none, index)

/-- Models `CursorMut::split_before`.  Returns `(heap, self-list, cur, index, output)`. -/
def splitBefore (h : Heap α) (l : LinkedList) (cur : Option Addr)
    (index : Option Nat) :
    Option (Heap α × LinkedList × Option Addr × Option Nat × LinkedList) :=
  match cur with
  | some c =>
    match h.node c, index with
    | some nd, some oldIdx =>
      let oldLen := l.len
      let prev := nd.front
      let newLen := oldLen - oldIdx
      let newFront := cur
      let newBack := l.back
      let newIdx : Option Nat := some 0
      let outputLen := oldLen - newLen
      let outputFront := l.front
      let outputBack := prev
      let h :=
        match prev with
        | some p => (h.setFront c none).setBack p none
        | none => h
      some (h, ⟨newFront, newBack, newLen⟩, cur, newIdx,
        ⟨outputFront, outputBack, outputLen⟩)
    | _, _ => none
  | none =>
    -- ghost: `std::mem::replace(self.list, LinkedList::new())`
    some (h, LinkedList.new, none, index, l)

/-- Models `CursorMut::split_after`. -/
def splitAfter (h : Heap α) (l : LinkedList) (cur : Option Addr)
    (index : Option Nat) :
    Option (Heap α × LinkedList × Option Addr × Option Nat × LinkedList) :=
  match cur with
  | some c =>
    match h.node c, index with
    | some nd, some oldIdx =>
      let oldLen := l.len
      let nxt := nd.back
      let newLen := oldIdx + 1
      let newBack := cur
      let newFront := l.front
      let newIdx : Option Nat := some oldIdx
      let outputLen := oldLen - newLen
      let outputFront := nxt
      let outputBack := l.back
      let h :=
        match nxt with
        | some n2 => (h.setBack c none).setFront n2 none
        | none => h
      some (h, ⟨newFront, newBack, newLen⟩, cur, newIdx,
        ⟨outputFront, outputBack, outputLen⟩)
    | _, _ => none
  | none =>
    some (h, LinkedList.new, none, index, l)

/-- Models `CursorMut::splice_before`.  `input`'s nodes live in the same heap; the
residual `input` header is dropped at the end of the function, as in the
source (`// Input dropped here`). -/
def spliceBefore (h : Heap α) (l : LinkedList) (cur : Option Addr)
    (index : Option Nat) (input : LinkedList) :
    Option (Heap α × LinkedList × Option Addr × Option Nat) :=
  if input.len == 0 then
    let l := { l with len := l.len + input.len }
    let input := { input with len := 0 }
    (dropList h input).map fun h => (h, l, cur, index)
  else
    match cur with
    | some c =>
      match input.front, input.back, index, h.node c with
      | some inFront, some inBack, some i, some nd =>
        let input := { input with front := none, back := none }
        let (h, l) :=
          match nd.front with
          | some p =>
            let h := h.setBack p (some inFront)
            let h := h.setFront inFront (some p)
            let h := h.setFront c (some inBack)
            let h := h.setBack inBack (some c)
            (h, l)
          | none =>
            let h := h.setFront c (some inBack)
            let h := h.setBack inBack (some c)
            (h, { l with front := some inFront })
        let index : Option Nat := some (i + input.len)
        let l := { l with len := l.len + input.len }
        let input := { input with len := 0 }
        (dropList h input).map fun h => (h, l, cur, index)
      | _, _, _, _ => none
    | none =>
      match l.back with
      | some back =>
        match input.front, input.back with
        | some inFront, some inBack =>
          let input := { input with front := none, back := none }
          let h := h.setBack back (some inFront)
          let h := h.setFront inFront (some back)
          let l := { l with back := some inBack }
          let l := { l with len := l.len + input.len }
          let input := { input with len := 0 }
          (dropList h input).map fun h => (h, l, cur, index)
        | _, _ => none
      | none =>
        -- `std::mem::swap(self.list, &mut input)`
        let tmp := l
        let l := input
        let input := tmp
        let l := { l with len := l.len + input.len }
        let input := { input with len := 0 }
        (dropList h input).map fun h => (h, l, cur, index)

/-- Models `CursorMut::splice_after`. -/
def spliceAfter (h : Heap α) (l : LinkedList) (cur : Option Addr)
    (index : Option Nat) (input : LinkedList) :
    Option (Heap α × LinkedList × Option Addr × Option Nat) :=
  if input.len == 0 then
    let l := { l with len := l.len + input.len }
    let input := { input with len := 0 }
    (dropList h input).map fun h => (h, l, cur, index)
  else
    match cur with
    | some c =>
      match input.front, input.back, h.node c with
      | some inFront, some inBack, some nd =>
        let input := { input with front := none, back := none }
        let (h, l) :=
          match nd.back with
          | some nxt =>
            let h := h.setFront nxt (some inBack)
            let h := h.setBack inBack (some nxt)
            let h := h.setBack c (some inFront)
            let h := h.setFront inFront (some c)
            (h, l)
          | none =>
            let h := h.setBack c (some inFront)
            let h := h.setFront inFront (some c)
            (h, { l with back := some inBack })
        -- Index doesn't change
        let l := { l with len := l.len + input.len }
        let input := { input with len := 0 }
        (dropList h input).map fun h => (h, l, cur, index)
      | _, _, _ => none
    | none =>
      match l.front with
      | some front =>
        match input.front, input.back with
        | some inFront, some inBack =>
          let input := { input with front := none, back := none }
          let h := h.setFront front (some inBack)
          let h := h.setBack inBack (some front)
          let l := { l with front := some inFront }
          let l := { l with len := l.len + input.len }
          let input := { input with len := 0 }
          (dropList h input).map fun h => (h, l, cur, index)
        | _, _ => none
      | none =>
        let tmp := l
        let l := input
        let input := tmp
        let l := { l with len := l.len + input.len }
        let input := { input with len := 0 }
        (dropList h input).map fun h => (h, l, cur, index)

/-- The shared-reference iterator `Iter` (the mutable `IterMut` has the
identical `next`/`next_back`/`size_hint` bodies and is modelled by the same
state). -/
structure Iter where
  front : Option Addr
  back : Option Addr
  len : Nat
deriving DecidableEq

/-- Models `<&LinkedList as IntoIterator>::into_iter`. -/
def iterOf (l : LinkedList) : Iter := ⟨l.front, l.back, l.len⟩

/-- Models `Iter::next`. -/
def Iter.next (h : Heap α) (it : Iter) : Option (Option α × Iter) :=
  if it.len > 0 then
    match it.front with
    | none => some (none, it)
    | some a =>
      match h.node a with
      | none => none
      | some nd => some (some nd.elem, ⟨nd.back, it.back, it.len - 1⟩)
  else some (none, it)

/-- Models `Iter::next_back`. -/
def Iter.nextBack (h : Heap α) (it : Iter) : Option (Option α × Iter) :=
  if it.len > 0 then
    match it.back with
    | none => some (none, it)
    | some a =>
      match h.node a with
      | none => none
      | some nd => some (some nd.elem, ⟨it.front, nd.front, it.len - 1⟩)
  else some (none, it)

/-- Models `Iter::size_hint` (also `IterMut::size_hint`): `(len, Some(len))`. -/
def Iter.sizeHint (it : Iter) : Nat × Option Nat := (it.len, some it.len)

/-- Models `IntoIter::size_hint`: `(list.len, Some(list.len))`. -/
def intoIterSizeHint (l : LinkedList) : Nat × Option Nat := (l.len, some l.len)

/-- Run a finite interleaving of `next` (`true`) and `next_back` (`false`)
calls on an `Iter`; returns the values yielded at the front, the values
yielded at the back (each in call order), and the final iterator. -/
def runIter (h : Heap α) (it : Iter) :
    List Bool → Option (List α × List α × Iter)
  | [] => some ([], [], it)
  | true :: cs =>
    match Iter.next h it with
    | none => none
    | some (y, it1) =>
      match runIter h it1 cs with
      | none => none
      | some (fys, bys, itf) => some (y.toList ++ fys, bys, itf)
  | false :: cs =>
    match Iter.nextBack h it with
    | none => none
    | some (y, it1) =>
      match runIter h it1 cs with
      | none => none
      | some (fys, bys, itf) => some (fys, y.toList ++ bys, itf)

/-- Run a finite interleaving of `next` (= `pop_front`) and `next_back`
(= `pop_back`) calls on the consuming iterator `IntoIter`. -/
def runIntoIter (h : Heap α) (l : LinkedList) :
    List Bool → Option (List α × List α × Heap α × LinkedList)
  | [] => some ([], [], h, l)
  | true :: cs =>
    match popFront h l with
    | none => none
    | some (y, h1, l1) =>
      match runIntoIter h1 l1 cs with
      | none => none
      | some (fys, bys, hf, lf) => some (y.toList ++ fys, bys, hf, lf)
  | false :: cs =>
    match popBack h l with
    | none => none
    | some (y, h1, l1) =>
      match runIntoIter h1 l1 cs with
      | none => none
      | some (fys, bys, hf, lf) => some (fys, y.toList ++ bys, hf, lf)

/-- Models `FromIterator`/`Extend`: build a list by `push_back`-ing every element,
starting from a given heap (so several lists can share one heap). -/
def buildList (h : Heap α) (xs : List α) : Heap α × LinkedList :=
  xs.foldl (fun p x => pushBack p.1 p.2 x) (h, LinkedList.new)

/-! ### The specification side: chains, well-formedness, element sequences -/

/-- Follow `back` links starting at `cur` for `fuel` steps; return the
addresses visited and the link that follows the last visited node.
Fails if a missing node is hit. -/
def walk (h : Heap α) : Nat → Option Addr → Option (List Addr × Option Addr)
  | 0, cur => some ([], cur)
  | _ + 1, none => none
  | fuel + 1, some a =>
    match h.node a with
    | none => none
    | some nd => (walk h fuel nd.back).map fun p => (a :: p.1, p.2)

/-- Each node of `as` exists and its `front` link points to its predecessor
(`p` before the first element). -/
def prevOK (h : Heap α) : Option Addr → List Addr → Bool
  | _, [] => true
  | p, a :: as =>
    match h.node a with
    | none => false
    | some nd => nd.front == p && prevOK h (some a) as

/-- The elements stored at a list of addresses. -/
def elemsOf (h : Heap α) (as : List Addr) : List α :=
  as.filterMap fun a => (h.node a).map (·.elem)

/-- The structural invariant of §3 of the spec: following `next` from
`front` visits exactly `len` nodes, ends at `back` with no link beyond it,
and the `prev` links mirror the `next` links. -/
def listWf (h : Heap α) (l : LinkedList) : Bool :=
  match walk h l.len l.front with
  | none => false
  | some (as, e) => e == none && prevOK h none as && l.back == as.getLast?

/-- The front-to-back element sequence of a list. -/
def toList (h : Heap α) (l : LinkedList) : List α :=
  match walk h l.len l.front with
  | none => []
  | some (as, _) => elemsOf h as

/-- Well-formedness of an iterator state: its `len` next-links from `front`
form a chain ending at `back`, whose `prev` links continue back to `p`. -/
def iterWfFrom (h : Heap α) (p : Option Addr) (it : Iter) : Bool :=
  match walk h it.len it.front with
  | none => false
  | some (as, _) => prevOK h p as && (it.len == 0 || it.back == as.getLast?)

/-- The elements an iterator state has yet to yield. -/
def iterElems (h : Heap α) (it : Iter) : List α :=
  match walk h it.len it.front with
  | none => []
  | some (as, _) => elemsOf h as

/-- Models `impl PartialEq for LinkedList`: `self.len() == other.len() &&
self.into_iter().eq(other)`; `Iterator::eq` compares the two yielded
element sequences. -/
def eqImpl [DecidableEq α] (h1 : Heap α) (l1 : LinkedList)
    (h2 : Heap α) (l2 : LinkedList) : Bool :=
  l1.len == l2.len && toList h1 l1 == toList h2 l2

/-- One token fed to a `Hasher`. -/
inductive HashTok (α : Type) where
  | len : Nat → HashTok α
  | elem : α → HashTok α
deriving DecidableEq

/-- Models `impl Hash for LinkedList`: the exact sequence of values fed to the
hasher — the length first, then each element in forward order.  Any
deterministic hasher produces identical hashes from identical traces. -/
def hashTrace (h : Heap α) (l : LinkedList) : List (HashTok α) :=
  HashTok.len l.len :: (toList h l).map HashTok.elem

/-- The last address of `as`, or `p` if `as` is empty (the address whose
`back` link points at the continuation of the chain `p ▷ as`). -/
def lastP (p : Option Addr) (as : List Addr) : Option Addr :=
  match as.getLast? with
  | some b => some b
  | none => p

/-! ### Concrete scenarios used by individual claims -/

/-- The one-element list `[1]` (node `1` lives at address `0`). -/
def c1State : Heap Nat × LinkedList := buildList Heap.empty [1]

/-- Scenario: `[1]`, cursor moved to index 0 (`move_next` from the fresh ghost cursor),
then `split_before`; returns the output list and whether it is well formed. -/
def c1BeforeRun : Option (LinkedList × Bool) := do
  let (c, i) ← moveNext c1State.1 c1State.2 none none
  let (h, _, _, _, out) ← splitBefore c1State.1 c1State.2 c i
  return (out, listWf h out)

/-- Scenario: `[1]`, cursor at index 0 (which is also the last node), `split_after`. -/
def c1AfterRun : Option (LinkedList × Bool) := do
  let (c, i) ← moveNext c1State.1 c1State.2 none none
  let (h, _, _, _, out) ← splitAfter c1State.1 c1State.2 c i
  return (out, listWf h out)

/-- The two-element list `[1, 2]`. -/
def c2State : Heap Nat × LinkedList := buildList Heap.empty [1, 2]

/-- Scenario: `[1, 2]`, cursor at index 0, `split_before`, then splice the detached
prefix back before the cursor (the reconstruction of §8 of the spec);
returns the final sequence and well-formedness of the final list. -/
def c2Run : Option (List Nat × Bool) := do
  let (c, i) ← moveNext c2State.1 c2State.2 none none
  let (h, l, c, i, out) ← splitBefore c2State.1 c2State.2 c i
  let (h, l, _, _) ← spliceBefore h l c i out
  return (toList h l, listWf h l)

/-- The six-element list `[1, 2, 3, 4, 5, 6]`. -/
def c8Start : Heap Nat × LinkedList := buildList Heap.empty [1, 2, 3, 4, 5, 6]

/-- The call sequence exactly as the claim states it: fresh cursor at the
ghost, `splice_before([7])`, then move to index 0, `splice_after([8])`. -/
def c8ClaimRun : Option (List Nat) := do
  let p7 := buildList c8Start.1 [7]
  let (h, l, c, i) ← spliceBefore p7.1 c8Start.2 none none p7.2
  let (c, i) ← moveNext h l c i
  let p8 := buildList h [8]
  let (h, l, _, _) ← spliceAfter p8.1 l c i p8.2
  return toList h l

/-- The call sequence of the repository's own test: move the fresh cursor
to index 0 first, then `splice_before([7])` and `splice_after([8])`. -/
def c8TestRun : Option (List Nat) := do
  let p7 := buildList c8Start.1 [7]
  let (c, i) ← moveNext p7.1 c8Start.2 none none
  let (h, l, c, i) ← spliceBefore p7.1 c8Start.2 c i p7.2
  let p8 := buildList h [8]
  let (h, l, _, _) ← spliceAfter p8.1 l c i p8.2
  return toList h l

/-! ### Chain lemmas -/

theorem walk_length {h : Heap α} :
    ∀ {n : Nat} {cur : Option Addr} {as : List Addr} {e : Option Addr},
      walk h n cur = some (as, e) → as.length = n := by
  intro n
  induction n with
  | zero =>
    intro cur as e hw
    simp only [walk, Option.some.injEq, Prod.mk.injEq] at hw
    simp [← hw.1]
  | succ n ih =>
    intro cur as e hw
    cases cur with
    | none => simp [walk] at hw
    | some a =>
      cases hna : h.node a with
      | none => simp [walk, hna] at hw
      | some nd =>
        simp only [walk, hna] at hw
        cases hwr : walk h n nd.back with
        | none => rw [hwr] at hw; cases hw
        | some q =>
          rw [hwr] at hw
          simp only [Option.map_some', Option.some.injEq, Prod.mk.injEq] at hw
          obtain ⟨h1, h2⟩ := hw
          simp [← h1, ih hwr]

theorem walk_succ_iff {h : Heap α} {n : Nat} {cur : Option Addr}
    {as : List Addr} {e : Option Addr} :
    walk h (n + 1) cur = some (as, e) ↔
      ∃ a nd as2, cur = some a ∧ h.node a = some nd ∧
        walk h n nd.back = some (as2, e) ∧ as = a :: as2 := by
  constructor
  · intro hw
    cases cur with
    | none => simp [walk] at hw
    | some a =>
      cases hna : h.node a with
      | none => simp [walk, hna] at hw
      | some nd =>
        simp only [walk, hna] at hw
        cases hwr : walk h n nd.back with
        | none => rw [hwr] at hw; cases hw
        | some q =>
          rw [hwr] at hw
          simp only [Option.map_some', Option.some.injEq, Prod.mk.injEq] at hw
          exact ⟨a, nd, q.1, rfl, hna, by rw [hwr, ← hw.2], hw.1.symm⟩
  · rintro ⟨a, nd, as2, rfl, hna, hwr, rfl⟩
    simp [walk, hna, hwr]

theorem walk_append_of {h : Heap α} :
    ∀ {m : Nat} {n : Nat} {cur mid : Option Addr} {bs cs : List Addr}
      {e : Option Addr},
      walk h m cur = some (bs, mid) → walk h n mid = some (cs, e) →
      walk h (m + n) cur = some (bs ++ cs, e) := by
  intro m
  induction m with
  | zero =>
    intro n cur mid bs cs e h1 h2
    simp only [walk, Option.some.injEq, Prod.mk.injEq] at h1
    obtain ⟨hb, hm⟩ := h1
    subst hm
    simpa [← hb] using h2
  | succ m ih =>
    intro n cur mid bs cs e h1 h2
    rw [walk_succ_iff] at h1
    obtain ⟨a, nd, as2, rfl, hna, hwr, rfl⟩ := h1
    have : (m + 1) + n = (m + n) + 1 := by omega
    rw [this, walk_succ_iff]
    exact ⟨a, nd, as2 ++ cs, rfl, hna, ih hwr h2, rfl⟩

theorem walk_append_split {h : Heap α} :
    ∀ {m : Nat} {n : Nat} {cur : Option Addr} {as : List Addr} {e : Option Addr},
      walk h (m + n) cur = some (as, e) →
      ∃ bs mid cs, walk h m cur = some (bs, mid) ∧ walk h n mid = some (cs, e) ∧
        as = bs ++ cs := by
  intro m
  induction m with
  | zero =>
    intro n cur as e hw
    exact ⟨[], cur, as, rfl, by simpa using hw, rfl⟩
  | succ m ih =>
    intro n cur as e hw
    have : (m + 1) + n = (m + n) + 1 := by omega
    rw [this, walk_succ_iff] at hw
    obtain ⟨a, nd, as2, rfl, hna, hwr, rfl⟩ := hw
    obtain ⟨bs, mid, cs, hb, hc, rfl⟩ := ih hwr
    refine ⟨a :: bs, mid, cs, ?_, hc, rfl⟩
    rw [walk_succ_iff]
    exact ⟨a, nd, bs, rfl, hna, hb, rfl⟩

theorem walk_one {h : Heap α} {b : Addr} {nd : Node α}
    (hnb : h.node b = some nd) :
    walk h 1 (some b) = some ([b], nd.back) := by
  simp [walk, hnb]

theorem walk_snoc_split {h : Heap α} {n : Nat} {cur : Option Addr}
    {as : List Addr} {e : Option Addr}
    (hw : walk h (n + 1) cur = some (as, e)) :
    ∃ as2 b nd, walk h n cur = some (as2, some b) ∧ h.node b = some nd ∧
      nd.back = e ∧ as = as2 ++ [b] := by
  obtain ⟨bs, mid, cs, hb, hc, rfl⟩ := walk_append_split hw
  rw [walk_succ_iff] at hc
  obtain ⟨b, nd, as2, rfl, hnb, hwr, rfl⟩ := hc
  simp only [walk, Option.some.injEq, Prod.mk.injEq] at hwr
  obtain ⟨h1, h2⟩ := hwr
  exact ⟨bs, b, nd, hb, hnb, h2, by simp [← h1]⟩

theorem walk_snoc_of {h : Heap α} {n : Nat} {cur : Option Addr}
    {as2 : List Addr} {b : Addr} {nd : Node α}
    (hw : walk h n cur = some (as2, some b)) (hnb : h.node b = some nd) :
    walk h (n + 1) cur = some (as2 ++ [b], nd.back) :=
  walk_append_of hw (walk_one hnb)

theorem prevOK_cons_iff {h : Heap α} {p : Option Addr} {a : Addr}
    {as : List Addr} :
    prevOK h p (a :: as) = true ↔
      ∃ nd, h.node a = some nd ∧ nd.front = p ∧ prevOK h (some a) as = true := by
  constructor
  · intro hp
    simp only [prevOK] at hp
    cases hna : h.node a with
    | none => rw [hna] at hp; cases hp
    | some nd =>
      rw [hna] at hp
      simp only [Bool.and_eq_true, beq_iff_eq] at hp
      exact ⟨nd, rfl, hp.1, hp.2⟩
  · rintro ⟨nd, hna, hf, hrest⟩
    simp [prevOK, hna, hf, hrest]

theorem lastP_cons {p : Option Addr} {a : Addr} {as : List Addr} :
    lastP p (a :: as) = lastP (some a) as := by
  cases as with
  | nil => simp [lastP]
  | cons b bs =>
    cases hg : (b :: bs).getLast? with
    | none => exact absurd (List.getLast?_eq_none_iff.mp hg) (by simp)
    | some c => simp [lastP, List.getLast?_cons_cons, hg]

theorem lastP_of_ne_nil {p : Option Addr} {as : List Addr} (hne : as ≠ []) :
    lastP p as = as.getLast? := by
  cases hg : as.getLast? with
  | none => exact absurd (List.getLast?_eq_none_iff.mp hg) hne
  | some b => simp [lastP, hg]

theorem prevOK_append_iff {h : Heap α} :
    ∀ {as bs : List Addr} {p : Option Addr},
      prevOK h p (as ++ bs) = true ↔
        prevOK h p as = true ∧ prevOK h (lastP p as) bs = true := by
  intro as
  induction as with
  | nil => intro bs p; simp [prevOK, lastP]
  | cons a as ih =>
    intro bs p
    rw [List.cons_append, prevOK_cons_iff, prevOK_cons_iff, lastP_cons]
    constructor
    · rintro ⟨nd, hna, hf, hrest⟩
      rw [ih] at hrest
      exact ⟨⟨nd, hna, hf, hrest.1⟩, hrest.2⟩
    · rintro ⟨⟨nd, hna, hf, hrest⟩, hb⟩
      exact ⟨nd, hna, hf, ih.mpr ⟨hrest, hb⟩⟩

theorem elemsOf_cons {h : Heap α} {a : Addr} {as : List Addr} {nd : Node α}
    (hna : h.node a = some nd) :
    elemsOf h (a :: as) = nd.elem :: elemsOf h as := by
  simp [elemsOf, hna]

theorem elemsOf_append {h : Heap α} {as bs : List Addr} :
    elemsOf h (as ++ bs) = elemsOf h as ++ elemsOf h bs := by
  simp [elemsOf]

theorem elemsOf_length {h : Heap α} :
    ∀ {as : List Addr} {p : Option Addr}, prevOK h p as = true →
      (elemsOf h as).length = as.length := by
  intro as
  induction as with
  | nil => intro p _; rfl
  | cons a as ih =>
    intro p hp
    rw [prevOK_cons_iff] at hp
    obtain ⟨nd, hna, _, hrest⟩ := hp
    rw [elemsOf_cons hna]
    simp [ih hrest]

/-! ### Iterator step lemmas -/

theorem iterWfFrom_elim {h : Heap α} {p : Option Addr} {it : Iter}
    (hwf : iterWfFrom h p it = true) :
    ∃ as e, walk h it.len it.front = some (as, e) ∧ prevOK h p as = true ∧
      (it.len = 0 ∨ it.back = as.getLast?) := by
  unfold iterWfFrom at hwf
  cases hw : walk h it.len it.front with
  | none => rw [hw] at hwf; cases hwf
  | some q =>
    rw [hw] at hwf
    simp only [Bool.and_eq_true, Bool.or_eq_true, beq_iff_eq] at hwf
    exact ⟨q.1, q.2, by simp [hw], hwf.1, by
      rcases hwf.2 with h0 | hb
      · exact Or.inl (by simpa using h0)
      · exact Or.inr hb⟩

theorem iterWfFrom_intro {h : Heap α} {p : Option Addr} (it : Iter)
    (as : List Addr) (e : Option Addr)
    (hw : walk h it.len it.front = some (as, e)) (hp : prevOK h p as = true)
    (hb : it.len = 0 ∨ it.back = as.getLast?) :
    iterWfFrom h p it = true := by
  unfold iterWfFrom
  rw [hw]
  simp only [Bool.and_eq_true, Bool.or_eq_true, beq_iff_eq]
  exact ⟨hp, by
    rcases hb with h0 | hb
    · exact Or.inl (by simpa using h0)
    · exact Or.inr hb⟩

theorem iterElems_eq {h : Heap α} (it : Iter) {as : List Addr} {e : Option Addr}
    (hw : walk h it.len it.front = some (as, e)) :
    iterElems h it = elemsOf h as := by
  unfold iterElems
  rw [hw]

theorem iter_next_zero {h : Heap α} {it : Iter} (h0 : it.len = 0) :
    Iter.next h it = some (none, it) := by
  simp [Iter.next, h0]

theorem iter_nextBack_zero {h : Heap α} {it : Iter} (h0 : it.len = 0) :
    Iter.nextBack h it = some (none, it) := by
  simp [Iter.nextBack, h0]

theorem iter_next_succ {h : Heap α} {p : Option Addr} {it : Iter} {n : Nat}
    (hwf : iterWfFrom h p it = true) (hn : it.len = n + 1) :
    ∃ a nd, it.front = some a ∧ h.node a = some nd ∧
      Iter.next h it = some (some nd.elem, ⟨nd.back, it.back, n⟩) ∧
      iterWfFrom h (some a) ⟨nd.back, it.back, n⟩ = true ∧
      iterElems h it = nd.elem :: iterElems h ⟨nd.back, it.back, n⟩ := by
  obtain ⟨as, e, hw, hp, hb⟩ := iterWfFrom_elim hwf
  rw [hn, walk_succ_iff] at hw
  obtain ⟨a, nd, as2, hfr, hna, hwr, rfl⟩ := hw
  rw [prevOK_cons_iff] at hp
  obtain ⟨nd2, hna2, _, hrest⟩ := hp
  rw [hna] at hna2
  cases hna2
  refine ⟨a, nd, hfr, hna, ?_, ?_, ?_⟩
  · simp [Iter.next, hn, hfr, hna]
  · refine iterWfFrom_intro _ as2 e (by simpa using hwr) hrest ?_
    cases n with
    | zero => exact Or.inl rfl
    | succ m =>
      refine Or.inr ?_
      rcases hb with h0 | hb
      · rw [hn] at h0; cases h0
      · have hlen : as2.length = m + 1 := walk_length hwr
        have hne : as2 ≠ [] := by
          intro hc
          rw [hc] at hlen
          cases hlen
        rw [hb]
        cases as2 with
        | nil => exact absurd rfl hne
        | cons x xs => simp [List.getLast?_cons_cons]
  · rw [iterElems_eq it (by rw [hn]; exact walk_succ_iff.mpr ⟨a, nd, as2, hfr, hna, hwr, rfl⟩)]
    rw [iterElems_eq ⟨nd.back, it.back, n⟩ (by simpa using hwr)]
    exact elemsOf_cons hna

theorem iter_nextBack_succ {h : Heap α} {p : Option Addr} {it : Iter} {n : Nat}
    (hwf : iterWfFrom h p it = true) (hn : it.len = n + 1) :
    ∃ b nd, it.back = some b ∧ h.node b = some nd ∧
      Iter.nextBack h it = some (some nd.elem, ⟨it.front, nd.front, n⟩) ∧
      iterWfFrom h p ⟨it.front, nd.front, n⟩ = true ∧
      iterElems h it = iterElems h ⟨it.front, nd.front, n⟩ ++ [nd.elem] := by
  obtain ⟨as, e, hw, hp, hb⟩ := iterWfFrom_elim hwf
  rw [hn] at hw
  obtain ⟨as2, b, nd, hw2, hnb, hbe, rfl⟩ := walk_snoc_split hw
  have hgl : (as2 ++ [b]).getLast? = some b := by
    rw [List.getLast?_concat]
  have hback : it.back = some b := by
    rcases hb with h0 | hb
    · rw [hn] at h0; cases h0
    · rw [hb, hgl]
  rw [prevOK_append_iff] at hp
  obtain ⟨hp2, hpb⟩ := hp
  rw [prevOK_cons_iff] at hpb
  obtain ⟨nd2, hnb2, hfr, _⟩ := hpb
  rw [hnb] at hnb2
  cases hnb2
  refine ⟨b, nd, hback, hnb, ?_, ?_, ?_⟩
  · simp [Iter.nextBack, hn, hback, hnb]
  · refine iterWfFrom_intro _ as2 (some b) (by simpa using hw2) hp2 ?_
    cases n with
    | zero => exact Or.inl rfl
    | succ m =>
      refine Or.inr ?_
      have hlen : as2.length = m + 1 := walk_length hw2
      have hne : as2 ≠ [] := by
        intro hc
        rw [hc] at hlen
        cases hlen
      show (⟨it.front, nd.front, m + 1⟩ : Iter).back = as2.getLast?
      have : nd.front = lastP p as2 := hfr
      rw [lastP_of_ne_nil hne] at this
      simpa using this
  · rw [iterElems_eq it (by rw [hn]; exact hw)]
    rw [iterElems_eq ⟨it.front, nd.front, n⟩ (by simpa using hw2)]
    rw [elemsOf_append, elemsOf_cons hnb]
    rfl

/-- Invariant preservation along an arbitrary interleaving of `next` and
`next_back` calls on the borrowing iterators. -/
theorem runIter_spec {h : Heap α} :
    ∀ (cs : List Bool) (it : Iter) (p : Option Addr),
      iterWfFrom h p it = true →
      ∃ fys bys it2 p2, runIter h it cs = some (fys, bys, it2) ∧
        iterWfFrom h p2 it2 = true ∧
        fys ++ iterElems h it2 ++ bys.reverse = iterElems h it ∧
        it2.len = it.len - cs.length := by
  intro cs
  induction cs with
  | nil =>
    intro it p hwf
    exact ⟨[], [], it, p, rfl, hwf, by simp, by simp⟩
  | cons c cs ih =>
    intro it p hwf
    cases c with
    | true =>
      cases hn : it.len with
      | zero =>
        obtain ⟨fys, bys, it2, p2, hrun, hwf2, hcat, hlen⟩ := ih it p hwf
        refine ⟨fys, bys, it2, p2, ?_, hwf2, hcat, ?_⟩
        · simp only [runIter, iter_next_zero hn, hrun]
          rfl
        · rw [hlen, hn]
          simp
      | succ n =>
        obtain ⟨a, nd, hfr, hna, hnext, hwf1, helems⟩ := iter_next_succ hwf hn
        obtain ⟨fys, bys, it2, p2, hrun, hwf2, hcat, hlen⟩ :=
          ih ⟨nd.back, it.back, n⟩ (some a) hwf1
        refine ⟨nd.elem :: fys, bys, it2, p2, ?_, hwf2, ?_, ?_⟩
        · simp only [runIter, hnext, hrun]
          rfl
        · rw [helems]
          simp only [List.cons_append]
          rw [hcat]
        · simp only [hlen, hn, List.length_cons]
          omega
    | false =>
      cases hn : it.len with
      | zero =>
        obtain ⟨fys, bys, it2, p2, hrun, hwf2, hcat, hlen⟩ := ih it p hwf
        refine ⟨fys, bys, it2, p2, ?_, hwf2, hcat, ?_⟩
        · simp only [runIter, iter_nextBack_zero hn, hrun]
          rfl
        · rw [hlen, hn]
          simp
      | succ n =>
        obtain ⟨b, nd, hbk, hnb, hnext, hwf1, helems⟩ := iter_nextBack_succ hwf hn
        obtain ⟨fys, bys, it2, p2, hrun, hwf2, hcat, hlen⟩ :=
          ih ⟨it.front, nd.front, n⟩ p hwf1
        refine ⟨fys, nd.elem :: bys, it2, p2, ?_, hwf2, ?_, ?_⟩
        · simp only [runIter, hnext, hrun]
          rfl
        · rw [helems, ← hcat]
          simp [List.append_assoc]
        · simp only [hlen, hn, List.length_cons]
          omega

/-! ### Heap framing and congruence lemmas -/

theorem free_node_ne (h : Heap α) (df x : Addr) (hx : x ≠ df) :
    (h.free df).node x = h.node x := by
  simp [Heap.free, hx]

theorem set_node_ne (h : Heap α) (df : Addr) (nd : Node α) (x : Addr)
    (hx : x ≠ df) : (h.set df nd).node x = h.node x := by
  simp [Heap.set, hx]

theorem setFront_node_ne (h : Heap α) (df : Addr) (v : Option Addr) (x : Addr)
    (hx : x ≠ df) : (h.setFront df v).node x = h.node x := by
  unfold Heap.setFront
  cases h.node df with
  | none => rfl
  | some nd => exact set_node_ne h df _ x hx

theorem setBack_node_ne (h : Heap α) (df : Addr) (v : Option Addr) (x : Addr)
    (hx : x ≠ df) : (h.setBack df v).node x = h.node x := by
  unfold Heap.setBack
  cases h.node df with
  | none => rfl
  | some nd => exact set_node_ne h df _ x hx

theorem setFront_node_self {h : Heap α} {df : Addr} {nd : Node α}
    (hnd : h.node df = some nd) (v : Option Addr) :
    (h.setFront df v).node df = some { nd with front := v } := by
  simp [Heap.setFront, hnd, Heap.set]

theorem setBack_node_self {h : Heap α} {df : Addr} {nd : Node α}
    (hnd : h.node df = some nd) (v : Option Addr) :
    (h.setBack df v).node df = some { nd with back := v } := by
  simp [Heap.setBack, hnd, Heap.set]

theorem walk_frame {h h2 : Heap α} {df : Addr}
    (hx : ∀ x, x ≠ df → h2.node x = h.node x) :
    ∀ {n : Nat} {cur : Option Addr} {as : List Addr} {e : Option Addr},
      walk h n cur = some (as, e) → df ∉ as → walk h2 n cur = some (as, e) := by
  intro n
  induction n with
  | zero =>
    intro cur as e hw _
    simpa [walk] using hw
  | succ n ih =>
    intro cur as e hw hmem
    rw [walk_succ_iff] at hw
    obtain ⟨a, nd, as2, rfl, hna, hwr, rfl⟩ := hw
    have hne : a ≠ df := fun hc => hmem (hc ▸ List.mem_cons_self a as2)
    rw [walk_succ_iff]
    exact ⟨a, nd, as2, rfl, (hx a hne).trans hna,
      ih hwr (fun hc => hmem (List.mem_cons_of_mem a hc)), rfl⟩

theorem prevOK_frame {h h2 : Heap α} {df : Addr}
    (hx : ∀ x, x ≠ df → h2.node x = h.node x) :
    ∀ {as : List Addr} {p : Option Addr},
      prevOK h p as = true → df ∉ as → prevOK h2 p as = true := by
  intro as
  induction as with
  | nil => intro p _ _; rfl
  | cons a as ih =>
    intro p hp hmem
    rw [prevOK_cons_iff] at hp
    obtain ⟨nd, hna, hf, hrest⟩ := hp
    have hne : a ≠ df := fun hc => hmem (hc ▸ List.mem_cons_self a as)
    exact prevOK_cons_iff.mpr ⟨nd, (hx a hne).trans hna, hf,
      ih hrest (fun hc => hmem (List.mem_cons_of_mem a hc))⟩

theorem elemsOf_frame {h h2 : Heap α} {df : Addr}
    (hx : ∀ x, x ≠ df → h2.node x = h.node x) :
    ∀ {as : List Addr}, df ∉ as → elemsOf h2 as = elemsOf h as := by
  intro as
  induction as with
  | nil => intro _; rfl
  | cons a as ih =>
    intro hmem
    have hne : a ≠ df := fun hc => hmem (hc ▸ List.mem_cons_self a as)
    have htail : df ∉ as := fun hc => hmem (List.mem_cons_of_mem a hc)
    have ih2 := ih htail
    simp only [elemsOf, List.filterMap_cons] at ih2 ⊢
    rw [hx a hne, ih2]

theorem walk_congr {h h2 : Heap α}
    (hb : ∀ x, (h2.node x).map Node.back = (h.node x).map Node.back) :
    ∀ (n : Nat) (cur : Option Addr), walk h2 n cur = walk h n cur := by
  intro n
  induction n with
  | zero => intro cur; rfl
  | succ n ih =>
    intro cur
    cases cur with
    | none => rfl
    | some a =>
      have hba := hb a
      cases hna : h.node a with
      | none =>
        cases hna2 : h2.node a with
        | none => simp [walk, hna, hna2]
        | some nd2 => rw [hna, hna2] at hba; simp at hba
      | some nd =>
        cases hna2 : h2.node a with
        | none => rw [hna, hna2] at hba; simp at hba
        | some nd2 =>
          rw [hna, hna2] at hba
          simp only [Option.map_some', Option.some.injEq] at hba
          simp [walk, hna, hna2, hba, ih]

theorem prevOK_congr {h h2 : Heap α}
    (hf : ∀ x, (h2.node x).map Node.front = (h.node x).map Node.front) :
    ∀ (as : List Addr) (p : Option Addr), prevOK h2 p as = prevOK h p as := by
  intro as
  induction as with
  | nil => intro p; rfl
  | cons a as ih =>
    intro p
    have hfa := hf a
    cases hna : h.node a with
    | none =>
      cases hna2 : h2.node a with
      | none => simp [prevOK, hna, hna2]
      | some nd2 => rw [hna, hna2] at hfa; simp at hfa
    | some nd =>
      cases hna2 : h2.node a with
      | none => rw [hna, hna2] at hfa; simp at hfa
      | some nd2 =>
        rw [hna, hna2] at hfa
        simp only [Option.map_some', Option.some.injEq] at hfa
        simp [prevOK, hna, hna2, hfa, ih]

theorem elemsOf_congr {h h2 : Heap α}
    (he : ∀ x, (h2.node x).map Node.elem = (h.node x).map Node.elem) :
    ∀ (as : List Addr), elemsOf h2 as = elemsOf h as := by
  intro as
  induction as with
  | nil => rfl
  | cons a as ih =>
    have hea := he a
    have ih2 := ih
    simp only [elemsOf, List.filterMap_cons] at ih2 ⊢
    cases hna : h.node a with
    | none =>
      cases hna2 : h2.node a with
      | none => simpa [hna, hna2] using ih2
      | some nd2 => rw [hna, hna2] at hea; simp at hea
    | some nd =>
      cases hna2 : h2.node a with
      | none => rw [hna, hna2] at hea; simp at hea
      | some nd2 =>
        rw [hna, hna2] at hea
        simp only [Option.map_some', Option.some.injEq] at hea
        simp only [hna, hna2, Option.map_some', hea, ih2]

theorem setFront_back_agree (h : Heap α) (df : Addr) (v : Option Addr) :
    ∀ x, ((h.setFront df v).node x).map Node.back = (h.node x).map Node.back := by
  intro x
  by_cases hx : x = df
  · subst hx
    cases hnd : h.node x with
    | none => simp [Heap.setFront, hnd]
    | some nd => rw [setFront_node_self hnd]; simp [hnd]
  · rw [setFront_node_ne h df v x hx]

theorem setFront_elem_agree (h : Heap α) (df : Addr) (v : Option Addr) :
    ∀ x, ((h.setFront df v).node x).map Node.elem = (h.node x).map Node.elem := by
  intro x
  by_cases hx : x = df
  · subst hx
    cases hnd : h.node x with
    | none => simp [Heap.setFront, hnd]
    | some nd => rw [setFront_node_self hnd]; simp [hnd]
  · rw [setFront_node_ne h df v x hx]

theorem setBack_front_agree (h : Heap α) (df : Addr) (v : Option Addr) :
    ∀ x, ((h.setBack df v).node x).map Node.front = (h.node x).map Node.front := by
  intro x
  by_cases hx : x = df
  · subst hx
    cases hnd : h.node x with
    | none => simp [Heap.setBack, hnd]
    | some nd => rw [setBack_node_self hnd]; simp [hnd]
  · rw [setBack_node_ne h df v x hx]

theorem setBack_elem_agree (h : Heap α) (df : Addr) (v : Option Addr) :
    ∀ x, ((h.setBack df v).node x).map Node.elem = (h.node x).map Node.elem := by
  intro x
  by_cases hx : x = df
  · subst hx
    cases hnd : h.node x with
    | none => simp [Heap.setBack, hnd]
    | some nd => rw [setBack_node_self hnd]; simp [hnd]
  · rw [setBack_node_ne h df v x hx]

/-! ### Chains visit distinct nodes -/

theorem walk_fronts {h : Heap α} :
    ∀ {n : Nat} {cur : Option Addr} {as : List Addr} {e p : Option Addr},
      walk h n cur = some (as, e) → prevOK h p as = true →
      ∀ b ∈ as, ∃ nd, h.node b = some nd ∧
        (nd.front = p ∨ ∃ c ∈ as, nd.front = some c) := by
  intro n
  induction n with
  | zero =>
    intro cur as e p hw _ b hmem
    simp only [walk, Option.some.injEq, Prod.mk.injEq] at hw
    rw [← hw.1] at hmem
    cases hmem
  | succ n ih =>
    intro cur as e p hw hp b hmem
    rw [walk_succ_iff] at hw
    obtain ⟨a, nd, as2, rfl, hna, hwr, rfl⟩ := hw
    rw [prevOK_cons_iff] at hp
    obtain ⟨nd2, hna2, hf, hrest⟩ := hp
    rw [hna] at hna2
    cases hna2
    rcases List.mem_cons.mp hmem with rfl | hmem2
    · exact ⟨nd, hna, Or.inl hf⟩
    · obtain ⟨nd3, hnb, hcase⟩ := ih hwr hrest b hmem2
      refine ⟨nd3, hnb, ?_⟩
      rcases hcase with hcase | ⟨c, hc, hcase⟩
      · exact Or.inr ⟨a, List.mem_cons_self a as2, hcase⟩
      · exact Or.inr ⟨c, List.mem_cons_of_mem a hc, hcase⟩

theorem walk_nodup {h : Heap α} :
    ∀ {n : Nat} {cur : Option Addr} {as : List Addr} {e p : Option Addr},
      walk h n cur = some (as, e) → prevOK h p as = true →
      (∀ b ∈ as, p ≠ some b) → as.Nodup := by
  intro n
  induction n with
  | zero =>
    intro cur as e p hw _ _
    simp only [walk, Option.some.injEq, Prod.mk.injEq] at hw
    rw [← hw.1]
    exact List.nodup_nil
  | succ n ih =>
    intro cur as e p hw hp hnp
    rw [walk_succ_iff] at hw
    obtain ⟨a, nd, as2, rfl, hna, hwr, rfl⟩ := hw
    rw [prevOK_cons_iff] at hp
    obtain ⟨nd2, hna2, hf, hrest⟩ := hp
    rw [hna] at hna2
    cases hna2
    have hnotin : a ∉ as2 := by
      intro hmem
      obtain ⟨nd3, hna3, hcase⟩ := walk_fronts hwr hrest a hmem
      rw [hna] at hna3
      cases hna3
      rcases hcase with hcase | ⟨c, hc, hcase⟩
      · exact hnp a (List.mem_cons_self a as2) (hf.symm.trans hcase)
      · exact hnp c (List.mem_cons_of_mem a hc) (hf.symm.trans hcase)
    exact List.nodup_cons.mpr ⟨hnotin,
      ih hwr hrest (fun b hb hc => hnotin (by rw [Option.some.injEq] at hc; rw [hc]; exact hb))⟩

theorem walk_setBack_last {h : Heap α} :
    ∀ {n : Nat} {cur : Option Addr} {as : List Addr} {e : Option Addr}
      {b : Addr} {v : Option Addr},
      walk h n cur = some (as, e) → as.getLast? = some b → as.Nodup →
      walk (h.setBack b v) n cur = some (as, v) := by
  intro n
  induction n with
  | zero =>
    intro cur as e b v hw hg _
    simp only [walk, Option.some.injEq, Prod.mk.injEq] at hw
    rw [← hw.1] at hg
    cases hg
  | succ n ih =>
    intro cur as e b v hw hg hnd
    rw [walk_succ_iff] at hw
    obtain ⟨a, nd, as2, rfl, hna, hwr, rfl⟩ := hw
    by_cases has2 : as2 = []
    · subst has2
      have hn0 : n = 0 := by
        have hl := walk_length hwr
        simp at hl
        omega
      subst hn0
      simp only [List.getLast?_singleton, Option.some.injEq] at hg
      subst hg
      rw [walk_succ_iff]
      refine ⟨a, { nd with back := v }, [], rfl, setBack_node_self hna v, ?_, rfl⟩
      simp [walk]
    · have hg2 : as2.getLast? = some b := by
        cases as2 with
        | nil => exact absurd rfl has2
        | cons x xs => rw [← hg, List.getLast?_cons_cons]
      have hbmem : b ∈ as2 := List.mem_of_mem_getLast? hg2
      have hane : a ≠ b := by
        intro hc
        exact (List.nodup_cons.mp hnd).1 (hc ▸ hbmem)
      rw [walk_succ_iff]
      exact ⟨a, nd, as2, rfl, (setBack_node_ne h b v a hane).trans hna,
        ih hwr hg2 (List.nodup_cons.mp hnd).2, rfl⟩

/-! ### List well-formedness and the pop operations -/

theorem listWf_elim {h : Heap α} {l : LinkedList} (hwf : listWf h l = true) :
    ∃ as, walk h l.len l.front = some (as, none) ∧ prevOK h none as = true ∧
      l.back = as.getLast? := by
  unfold listWf at hwf
  cases hw : walk h l.len l.front with
  | none => rw [hw] at hwf; cases hwf
  | some q =>
    obtain ⟨as, e⟩ := q
    rw [hw] at hwf
    simp only [Bool.and_eq_true, beq_iff_eq] at hwf
    exact ⟨as, by rw [hwf.1.1], hwf.1.2, hwf.2⟩

theorem listWf_intro {h : Heap α} {l : LinkedList} (as : List Addr)
    (hw : walk h l.len l.front = some (as, none)) (hp : prevOK h none as = true)
    (hb : l.back = as.getLast?) : listWf h l = true := by
  unfold listWf
  rw [hw]
  simp [hp, hb]

theorem toList_eq {h : Heap α} {l : LinkedList} {as : List Addr}
    {e : Option Addr} (hw : walk h l.len l.front = some (as, e)) :
    toList h l = elemsOf h as := by
  unfold toList
  rw [hw]

theorem listWf_nodup {h : Heap α} {l : LinkedList} {as : List Addr}
    (hw : walk h l.len l.front = some (as, none))
    (hp : prevOK h none as = true) : as.Nodup :=
  walk_nodup hw hp (fun b _ hc => by cases hc)

theorem listWf_len_zero {h : Heap α} {l : LinkedList}
    (hwf : listWf h l = true) (h0 : l.len = 0) :
    l.front = none ∧ l.back = none := by
  obtain ⟨as, hw, _, hb⟩ := listWf_elim hwf
  rw [h0] at hw
  simp only [walk, Option.some.injEq, Prod.mk.injEq] at hw
  refine ⟨hw.2, ?_⟩
  rw [hb, ← hw.1]
  rfl

theorem toList_length {h : Heap α} {l : LinkedList}
    (hwf : listWf h l = true) : (toList h l).length = l.len := by
  obtain ⟨as, hw, hp, _⟩ := listWf_elim hwf
  rw [toList_eq hw, elemsOf_length hp, walk_length hw]

theorem iterElems_length {h : Heap α} {p : Option Addr} {it : Iter}
    (hwf : iterWfFrom h p it = true) : (iterElems h it).length = it.len := by
  obtain ⟨as, e, hw, hp, _⟩ := iterWfFrom_elim hwf
  rw [iterElems_eq it hw, elemsOf_length hp, walk_length hw]

theorem listWf_iterOf {h : Heap α} {l : LinkedList}
    (hwf : listWf h l = true) : iterWfFrom h none (iterOf l) = true := by
  obtain ⟨as, hw, hp, hb⟩ := listWf_elim hwf
  exact iterWfFrom_intro (iterOf l) as none hw hp (Or.inr hb)

theorem pop_empty {h : Heap α} {l : LinkedList}
    (hwf : listWf h l = true) (h0 : l.len = 0) :
    popFront h l = some (none, h, l) ∧ popBack h l = some (none, h, l) := by
  obtain ⟨hf, hb⟩ := listWf_len_zero hwf h0
  constructor
  · unfold popFront; rw [hf]
  · unfold popBack; rw [hb]

theorem popFront_step {h : Heap α} {l : LinkedList} {n : Nat}
    (hwf : listWf h l = true) (hn : l.len = n + 1) :
    ∃ x h2 l2, popFront h l = some (some x, h2, l2) ∧ listWf h2 l2 = true ∧
      l2.len = n ∧ toList h l = x :: toList h2 l2 := by
  obtain ⟨as, hw, hp, hb⟩ := listWf_elim hwf
  have hworig := hw
  rw [hn, walk_succ_iff] at hw
  obtain ⟨a, nd, as2, hfr, hna, hwr, hase⟩ := hw
  subst hase
  have hnodup : (a :: as2).Nodup := listWf_nodup hworig hp
  have hanotin : a ∉ as2 := (List.nodup_cons.mp hnodup).1
  obtain ⟨nd2, hna2, hndfr, hrest⟩ := prevOK_cons_iff.mp hp
  rw [hna] at hna2
  cases hna2
  have htl : toList h l = nd.elem :: elemsOf h as2 := by
    rw [toList_eq hworig, elemsOf_cons hna]
  have hfreeok : ∀ x, x ≠ a → (h.free a).node x = h.node x :=
    fun x hx => free_node_ne h a x hx
  cases hback : nd.back with
  | some newA =>
    rw [hback] at hwr
    -- as2 is nonempty: its walk starts at a real node and must end at `none`
    cases hn2 : n with
    | zero =>
      rw [hn2] at hwr
      simp only [walk, Option.some.injEq, Prod.mk.injEq] at hwr
      cases hwr.2
    | succ m =>
      rw [hn2] at hwr
      have hwr2 := hwr
      rw [walk_succ_iff] at hwr2
      obtain ⟨a2, nd3, as3, ha2, hna3, _, hase2⟩ := hwr2
      rw [Option.some.injEq] at ha2
      subst ha2
      subst hase2
      have hnewAne : newA ≠ a := fun hc => hanotin (hc ▸ List.mem_cons_self newA as3)
      have hnewAnotin : newA ∉ as3 := (List.nodup_cons.mp (List.nodup_cons.mp hnodup).2).1
      -- the heap after `pop_front`
      refine ⟨nd.elem, (h.free a).setFront newA none,
        { l with front := nd.back, len := l.len - 1 }, ?_, ?_, ?_, ?_⟩
      · simp [popFront, hfr, hna, hback]
      · -- well-formedness of the shorter list
        have hwalk1 : walk (h.free a) n (some newA) = some (newA :: as3, none) := by
          rw [hn2]
          exact walk_frame hfreeok hwr (fun hc => hanotin hc)
        have hwalk2 : walk ((h.free a).setFront newA none) n (some newA) =
            some (newA :: as3, none) := by
          rw [walk_congr (setFront_back_agree (h.free a) newA none) n (some newA)]
          exact hwalk1
        have hfreeNewA : (h.free a).node newA = h.node newA :=
          free_node_ne h a newA hnewAne
        obtain ⟨ndN, hnN, hfN, hrest2⟩ := prevOK_cons_iff.mp hrest
        have hsfok : ∀ x, x ≠ newA →
            ((h.free a).setFront newA none).node x = (h.free a).node x :=
          fun x hx => setFront_node_ne (h.free a) newA none x hx
        have hprev2 : prevOK ((h.free a).setFront newA none) (some newA) as3 = true := by
          refine prevOK_frame hsfok ?_ hnewAnotin
          exact prevOK_frame hfreeok hrest2 (fun hc => hanotin (List.mem_cons_of_mem newA hc))
        have hprev : prevOK ((h.free a).setFront newA none) none (newA :: as3) = true := by
          refine prevOK_cons_iff.mpr ⟨{ ndN with front := none }, ?_, rfl, hprev2⟩
          rw [setFront_node_self (by rw [hfreeNewA]; exact hnN) none]
        refine listWf_intro (newA :: as3) ?_ hprev ?_
        · show walk _ (l.len - 1) _ = _
          rw [hn, hback]
          simpa using hwalk2
        · show l.back = (newA :: as3).getLast?
          rw [hb]
          rw [List.getLast?_cons_cons]
      · simp [hn, hn2]
      · rw [htl]
        have helem1 : elemsOf (h.free a) (newA :: as3) = elemsOf h (newA :: as3) :=
          elemsOf_frame hfreeok (fun hc => hanotin hc)
        have helem2 : elemsOf ((h.free a).setFront newA none) (newA :: as3) =
            elemsOf (h.free a) (newA :: as3) :=
          elemsOf_congr (setFront_elem_agree (h.free a) newA none) (newA :: as3)
        have hww : walk ((h.free a).setFront newA none)
            (({ l with front := nd.back, len := l.len - 1 } : LinkedList)).len
            (({ l with front := nd.back, len := l.len - 1 } : LinkedList)).front =
            some (newA :: as3, none) := by
          show walk _ (l.len - 1) nd.back = _
          rw [hn, hback, hn2]
          simp only [Nat.add_sub_cancel]
          rw [walk_congr (setFront_back_agree (h.free a) newA none) (m + 1) (some newA)]
          exact walk_frame hfreeok hwr (fun hc => hanotin hc)
        rw [toList_eq hww, helem2, helem1]
  | none =>
    rw [hback] at hwr
    cases hn2 : n with
    | succ m => rw [hn2] at hwr; simp [walk] at hwr
    | zero =>
      rw [hn2] at hwr
      simp only [walk, Option.some.injEq, Prod.mk.injEq] at hwr
      have has2 : as2 = [] := by rw [← hwr.1]
      subst has2
      refine ⟨nd.elem, h.free a, ⟨nd.back, none, l.len - 1⟩, ?_, ?_, ?_, ?_⟩
      · simp [popFront, hfr, hna, hback]
      · refine listWf_intro [] ?_ rfl rfl
        show walk _ (l.len - 1) nd.back = _
        rw [hn, hn2, hback]
        simp [walk]
      · simp [hn, hn2]
      · rw [htl]
        have hww : walk (h.free a) ((⟨nd.back, none, l.len - 1⟩ : LinkedList)).len
            ((⟨nd.back, none, l.len - 1⟩ : LinkedList)).front = some ([], none) := by
          show walk _ (l.len - 1) nd.back = _
          rw [hn, hn2, hback]
          simp [walk]
        rw [toList_eq hww]
        rfl

theorem popBack_step {h : Heap α} {l : LinkedList} {n : Nat}
    (hwf : listWf h l = true) (hn : l.len = n + 1) :
    ∃ x h2 l2, popBack h l = some (some x, h2, l2) ∧ listWf h2 l2 = true ∧
      l2.len = n ∧ toList h l = toList h2 l2 ++ [x] := by
  obtain ⟨as, hw, hp, hb⟩ := listWf_elim hwf
  have hworig := hw
  rw [hn] at hw
  obtain ⟨as2, b, nd, hw2, hnb, hbe, hase⟩ := walk_snoc_split hw
  subst hase
  have hback : l.back = some b := by
    rw [hb, List.getLast?_concat]
  have hnodup : (as2 ++ [b]).Nodup := listWf_nodup hworig hp
  obtain ⟨hnodup2, _, hdisj⟩ := List.nodup_append.mp hnodup
  have hbnotin : b ∉ as2 := fun hmem => (hdisj hmem) (List.mem_singleton.mpr rfl)
  rw [prevOK_append_iff] at hp
  obtain ⟨hp2, hpb⟩ := hp
  obtain ⟨nd2, hnb2, hfr, _⟩ := prevOK_cons_iff.mp hpb
  rw [hnb] at hnb2
  cases hnb2
  have htl : toList h l = elemsOf h as2 ++ [nd.elem] := by
    rw [toList_eq hworig, elemsOf_append, elemsOf_cons hnb]
    rfl
  have hfreeok : ∀ x, x ≠ b → (h.free b).node x = h.node x :=
    fun x hx => free_node_ne h b x hx
  cases hfront : nd.front with
  | some newB =>
    rw [hfront] at hfr
    have has2ne : as2 ≠ [] := by
      intro hc
      subst hc
      simp [lastP] at hfr
    have hg2 : as2.getLast? = some newB := by
      rw [lastP_of_ne_nil has2ne] at hfr
      exact hfr.symm
    refine ⟨nd.elem, (h.free b).setBack newB none,
      { l with back := nd.front, len := l.len - 1 }, ?_, ?_, ?_, ?_⟩
    · simp [popBack, hback, hnb, hfront]
    · have hwalk1 : walk (h.free b) n l.front = some (as2, some b) :=
        walk_frame hfreeok hw2 hbnotin
      have hwalk2 : walk ((h.free b).setBack newB none) n l.front =
          some (as2, none) :=
        walk_setBack_last hwalk1 hg2 hnodup2
      have hprev : prevOK ((h.free b).setBack newB none) none as2 = true := by
        rw [prevOK_congr (setBack_front_agree (h.free b) newB none) as2 none]
        exact prevOK_frame hfreeok hp2 hbnotin
      refine listWf_intro as2 ?_ hprev ?_
      · show walk _ (l.len - 1) l.front = _
        rw [hn]
        simpa using hwalk2
      · show ({ l with back := nd.front } : LinkedList).back = as2.getLast?
        rw [hg2]
        exact hfront
    · simp [hn]
    · rw [htl]
      have hwalk1 : walk (h.free b) n l.front = some (as2, some b) :=
        walk_frame hfreeok hw2 hbnotin
      have hwalk2 : walk ((h.free b).setBack newB none) n l.front =
          some (as2, none) :=
        walk_setBack_last hwalk1 hg2 hnodup2
      have helem1 : elemsOf (h.free b) as2 = elemsOf h as2 :=
        elemsOf_frame hfreeok hbnotin
      have helem2 : elemsOf ((h.free b).setBack newB none) as2 =
          elemsOf (h.free b) as2 :=
        elemsOf_congr (setBack_elem_agree (h.free b) newB none) as2
      have hww : walk ((h.free b).setBack newB none)
          (({ l with back := nd.front, len := l.len - 1 } : LinkedList)).len
          (({ l with back := nd.front, len := l.len - 1 } : LinkedList)).front =
          some (as2, none) := by
        show walk _ (l.len - 1) l.front = _
        rw [hn]
        simpa using hwalk2
      rw [toList_eq hww, helem2, helem1]
  | none =>
    rw [hfront] at hfr
    have has2 : as2 = [] := by
      cases has2 : as2 with
      | nil => rfl
      | cons x xs =>
        rw [has2, lastP_of_ne_nil (by simp)] at hfr
        cases hg : (x :: xs).getLast? with
        | none => exact absurd (List.getLast?_eq_none_iff.mp hg) (by simp)
        | some c => rw [hg] at hfr; cases hfr
    subst has2
    have hn0 : n = 0 := by
      have hl := walk_length hw2
      simp at hl
      omega
    subst hn0
    refine ⟨nd.elem, h.free b, ⟨none, nd.front, l.len - 1⟩, ?_, ?_, ?_, ?_⟩
    · simp [popBack, hback, hnb, hfront]
    · refine listWf_intro [] ?_ rfl ?_
      · show walk _ (l.len - 1) none = _
        rw [hn]
        simp [walk]
      · show nd.front = List.getLast? []
        rw [hfront]
        rfl
    · simp [hn]
    · rw [htl]
      have hww : walk (h.free b) ((⟨none, nd.front, l.len - 1⟩ : LinkedList)).len
          ((⟨none, nd.front, l.len - 1⟩ : LinkedList)).front = some ([], none) := by
        show walk _ (l.len - 1) none = _
        rw [hn]
        simp [walk]
      rw [toList_eq hww]
      rfl

/-- Invariant preservation along an arbitrary interleaving of `next`
(= `pop_front`) and `next_back` (= `pop_back`) calls on `IntoIter`. -/
theorem runIntoIter_spec :
    ∀ (cs : List Bool) {α : Type} (h : Heap α) (l : LinkedList),
      listWf h l = true →
      ∃ fys bys h2 l2, runIntoIter h l cs = some (fys, bys, h2, l2) ∧
        listWf h2 l2 = true ∧
        fys ++ toList h2 l2 ++ bys.reverse = toList h l ∧
        l2.len = l.len - cs.length := by
  intro cs
  induction cs with
  | nil =>
    intro α h l hwf
    exact ⟨[], [], h, l, rfl, hwf, by simp, by simp⟩
  | cons c cs ih =>
    intro α h l hwf
    cases c with
    | true =>
      cases hn : l.len with
      | zero =>
        obtain ⟨fys, bys, h2, l2, hrun, hwf2, hcat, hlen⟩ := ih h l hwf
        refine ⟨fys, bys, h2, l2, ?_, hwf2, hcat, ?_⟩
        · simp only [runIntoIter, (pop_empty hwf hn).1, hrun]
          rfl
        · simp only [hlen, hn, List.length_cons]
          omega
      | succ n =>
        obtain ⟨x, h1, l1, hpop, hwf1, hlen1, htl⟩ := popFront_step hwf hn
        obtain ⟨fys, bys, h2, l2, hrun, hwf2, hcat, hlen⟩ := ih h1 l1 hwf1
        refine ⟨x :: fys, bys, h2, l2, ?_, hwf2, ?_, ?_⟩
        · simp only [runIntoIter, hpop, hrun]
          rfl
        · rw [htl]
          simp only [List.cons_append]
          rw [hcat]
        · simp only [hlen, hlen1, hn, List.length_cons]
          omega
    | false =>
      cases hn : l.len with
      | zero =>
        obtain ⟨fys, bys, h2, l2, hrun, hwf2, hcat, hlen⟩ := ih h l hwf
        refine ⟨fys, bys, h2, l2, ?_, hwf2, hcat, ?_⟩
        · simp only [runIntoIter, (pop_empty hwf hn).2, hrun]
          rfl
        · simp only [hlen, hn, List.length_cons]
          omega
      | succ n =>
        obtain ⟨x, h1, l1, hpop, hwf1, hlen1, htl⟩ := popBack_step hwf hn
        obtain ⟨fys, bys, h2, l2, hrun, hwf2, hcat, hlen⟩ := ih h1 l1 hwf1
        refine ⟨fys, x :: bys, h2, l2, ?_, hwf2, ?_, ?_⟩
        · simp only [runIntoIter, hpop, hrun]
          rfl
        · rw [htl, ← hcat]
          simp [List.append_assoc]
        · simp only [hlen, hlen1, hn, List.length_cons]
          omega

/-! ### Remaining operation lemmas -/

theorem dropList_front_none (h : Heap α) (l : LinkedList)
    (hfr : l.front = none) : dropList h l = some h := by
  unfold dropList
  simp [clearFuel, popFront, hfr]

/-! ### The claims -/

/-- C1. The claim asserts that every list reachable through the public
interface satisfies the structural invariant, *in particular* the list
returned by `split_before` when the cursor is at index 0 and by
`split_after` when the cursor is at the last node.  The code violates
exactly those two cases: on the list `[1]` with the cursor at index 0,
`split_before` returns a list with `len = 0` but `front` still set (to the
node that stays in the source list), and `split_after` returns a list with
`len = 0` but `back` still set — `listWf` is `false` for both, breaking
"front is absent iff back is absent iff len == 0".  (Dropping the former
list would free a node still owned by the source list.) -/
theorem c1_split_boundary_invariant_broken :
    c1BeforeRun = some (⟨some 0, none, 0⟩, false) ∧
    c1AfterRun = some (⟨none, some 0, 0⟩, false) := by
  constructor
  · rfl
  · rfl

/-- C2. The claim asserts that splitting at any cursor position `i` and
splicing the results back together restores the original sequence.  At
`i = 0` it fails: `split_before` returns the corrupt empty list of C1;
`splice_before` correctly ignores it (its `len` is 0) but then drops it,
and the drop (`clear` = pop while `front` is set) follows the stale `front`
pointer and frees every node of the surviving list.  On `[1, 2]` the final
sequence is `[]`, not `[1, 2]`. -/
theorem c2_split_splice_roundtrip_broken_at_zero :
    c2Run = some (([] : List Nat), false) ∧ ([] : List Nat) ≠ [1, 2] := by
  constructor
  · rfl
  · decide

/-- C3. With the cursor at the ghost position, `split_before` (and
`split_after`) return the entire original list — the very same header, with
the heap untouched, so all elements are kept in order — and leave the
original list empty (`LinkedList.new`: no front, no back, `len = 0`). -/
theorem c3_ghost_split_returns_all (h : Heap α) (l : LinkedList)
    (idx : Option Nat) :
    splitBefore h l none idx = some (h, LinkedList.new, none, idx, l) ∧
    splitAfter h l none idx = some (h, LinkedList.new, none, idx, l) ∧
    LinkedList.new.len = 0 ∧ LinkedList.new.front = none ∧
    LinkedList.new.back = none ∧ toList h LinkedList.new = [] :=
  ⟨rfl, rfl, rfl, rfl, rfl, rfl⟩

/-- C4. With the cursor on a real node (`cur = some c`, `index = some i`)
and a non-empty input list of length `k`, `splice_before` leaves the cursor
on the same node and moves its index to `i + k`, while `splice_after`
leaves both the node and the index `i` unchanged. -/
theorem c4_splice_index_bookkeeping {α : Type} (h : Heap α)
    (l input : LinkedList) (c : Addr) (nd : Node α) (i k : Nat) (f b : Addr)
    (hc : h.node c = some nd) (hf : input.front = some f)
    (hb : input.back = some b) (hk : input.len = k) (hk0 : k ≠ 0) :
    ((spliceBefore h l (some c) (some i) input).map fun r =>
      (r.2.2.1, r.2.2.2)) = some (some c, some (i + k)) ∧
    ((spliceAfter h l (some c) (some i) input).map fun r =>
      (r.2.2.1, r.2.2.2)) = some (some c, some i) := by
  subst hk
  constructor
  · unfold spliceBefore
    rw [if_neg (by simp [hk0])]
    simp only [hf, hb, hc]
    cases hnf : nd.front with
    | some p => simp [dropList_front_none]
    | none => simp [dropList_front_none]
  · unfold spliceAfter
    rw [if_neg (by simp [hk0])]
    simp only [hf, hb, hc]
    cases hnb : nd.back with
    | some nxt => simp [dropList_front_none]
    | none => simp [dropList_front_none]

/-- Witness for C4: splicing the one-element list `[2]` (at address 1)
before/after the cursor on the single node of `[1]` (at address 0). -/
theorem c4_witness :
    ((spliceBefore (buildList (buildList (Heap.empty : Heap Nat) [1]).1 [2]).1
      (buildList (Heap.empty : Heap Nat) [1]).2 (some 0) (some 0)
      (buildList (buildList (Heap.empty : Heap Nat) [1]).1 [2]).2).map fun r =>
      (r.2.2.1, r.2.2.2)) = some (some 0, some (0 + 1)) ∧
    ((spliceAfter (buildList (buildList (Heap.empty : Heap Nat) [1]).1 [2]).1
      (buildList (Heap.empty : Heap Nat) [1]).2 (some 0) (some 0)
      (buildList (buildList (Heap.empty : Heap Nat) [1]).1 [2]).2).map fun r =>
      (r.2.2.1, r.2.2.2)) = some (some 0, some 0) :=
  c4_splice_index_bookkeeping _ _ _ 0 ⟨none, none, 1⟩ 0 1 1 1
    (by decide) (by decide) (by decide) (by decide) (by decide)

/-- C6. `pop_front` on an empty list returns the explicit `None` (no panic)
and leaves both the heap and the list untouched; symmetrically for
`pop_back`. -/
theorem c6_pop_empty_noop {α : Type} (h : Heap α) (l : LinkedList)
    (hwf : listWf h l = true) (h0 : l.len = 0) :
    popFront h l = some (none, h, l) ∧ popBack h l = some (none, h, l) :=
  pop_empty hwf h0

/-- Witness for C6: the freshly created empty list in the empty heap. -/
theorem c6_witness :
    popFront (Heap.empty : Heap Nat) LinkedList.new =
      some (none, Heap.empty, LinkedList.new) ∧
    popBack (Heap.empty : Heap Nat) LinkedList.new =
      some (none, Heap.empty, LinkedList.new) :=
  c6_pop_empty_noop Heap.empty LinkedList.new (by decide) rfl

/-- C7. Splicing a well-formed empty list before or after any cursor
position is a complete no-op: same heap (hence same links and elements),
same list header, and the cursor's node and index are unchanged. -/
theorem c7_splice_empty_noop {α : Type} (h : Heap α) (l : LinkedList)
    (cur : Option Addr) (idx : Option Nat) (input : LinkedList)
    (hwf : listWf h input = true) (h0 : input.len = 0) :
    spliceBefore h l cur idx input = some (h, l, cur, idx) ∧
    spliceAfter h l cur idx input = some (h, l, cur, idx) := by
  have hfr : input.front = none := (listWf_len_zero hwf h0).1
  constructor
  · unfold spliceBefore
    rw [if_pos (by simp [h0])]
    simp [dropList_front_none, hfr, h0]
  · unfold spliceAfter
    rw [if_pos (by simp [h0])]
    simp [dropList_front_none, hfr, h0]

/-- Witness for C7: splicing a fresh empty list into `[1]` with the cursor
on its only node. -/
theorem c7_witness :
    spliceBefore (buildList (Heap.empty : Heap Nat) [1]).1
      (buildList (Heap.empty : Heap Nat) [1]).2 (some 0) (some 0)
      LinkedList.new =
      some ((buildList (Heap.empty : Heap Nat) [1]).1,
        (buildList (Heap.empty : Heap Nat) [1]).2, some 0, some 0) ∧
    spliceAfter (buildList (Heap.empty : Heap Nat) [1]).1
      (buildList (Heap.empty : Heap Nat) [1]).2 (some 0) (some 0)
      LinkedList.new =
      some ((buildList (Heap.empty : Heap Nat) [1]).1,
        (buildList (Heap.empty : Heap Nat) [1]).2, some 0, some 0) :=
  c7_splice_empty_noop _ _ (some 0) (some 0) LinkedList.new (by decide) rfl

/-- C8 counterexample. Following the claim's call order on `[1,2,3,4,5,6]`
(ghost-position `splice_before([7])`, then move to index 0, then
`splice_after([8])`) yields `[1,8,2,3,4,5,6,7]` — ghost `splice_before`
appends `7` at the back — and not the claimed `[7,1,8,2,3,4,5,6]`. -/
theorem c8_claim_order_yields_other_list :
    c8ClaimRun = some [1, 8, 2, 3, 4, 5, 6, 7] ∧
    [1, 8, 2, 3, 4, 5, 6, 7] ≠ [7, 1, 8, 2, 3, 4, 5, 6] := by
  constructor
  · rfl
  · decide

/-- C8 as amended: moving the fresh cursor to index 0 *first* (as the
repository's own test does), then `splice_before([7])` and
`splice_after([8])`, yields forward iteration `[7,1,8,2,3,4,5,6]`. -/
theorem c8_move_first_order_yields_claimed_list :
    c8TestRun = some [7, 1, 8, 2, 3, 4, 5, 6] := by rfl

/-- C9. Two well-formed lists with the same forward element sequence
compare equal under the source's `PartialEq` (length check plus elementwise
forward comparison) and feed identical traces to the hasher (length first,
then each element in order); lists whose `len` fields differ are never
equal. -/
theorem c9_eq_and_hash_agree {α : Type} [DecidableEq α] (h1 h2 : Heap α)
    (l1 l2 : LinkedList) (hwf1 : listWf h1 l1 = true)
    (hwf2 : listWf h2 l2 = true) :
    (toList h1 l1 = toList h2 l2 →
      eqImpl h1 l1 h2 l2 = true ∧ hashTrace h1 l1 = hashTrace h2 l2) ∧
    (l1.len ≠ l2.len → eqImpl h1 l1 h2 l2 = false) := by
  have hl1 := toList_length hwf1
  have hl2 := toList_length hwf2
  constructor
  · intro heq
    have hlen : l1.len = l2.len := by rw [← hl1, ← hl2, heq]
    constructor
    · simp [eqImpl, hlen, heq]
    · simp [hashTrace, hlen, heq]
  · intro hne
    simp [eqImpl, hne]

/-- Witness for C9: the list `[1, 2]` built twice, in two separate heaps. -/
theorem c9_witness :
    (toList (buildList (Heap.empty : Heap Nat) [1, 2]).1
        (buildList (Heap.empty : Heap Nat) [1, 2]).2 =
      toList (buildList (buildList (Heap.empty : Heap Nat) [3]).1 [1, 2]).1
        (buildList (buildList (Heap.empty : Heap Nat) [3]).1 [1, 2]).2 →
      eqImpl (buildList (Heap.empty : Heap Nat) [1, 2]).1
        (buildList (Heap.empty : Heap Nat) [1, 2]).2
        (buildList (buildList (Heap.empty : Heap Nat) [3]).1 [1, 2]).1
        (buildList (buildList (Heap.empty : Heap Nat) [3]).1 [1, 2]).2 = true ∧
      hashTrace (buildList (Heap.empty : Heap Nat) [1, 2]).1
        (buildList (Heap.empty : Heap Nat) [1, 2]).2 =
      hashTrace (buildList (buildList (Heap.empty : Heap Nat) [3]).1 [1, 2]).1
        (buildList (buildList (Heap.empty : Heap Nat) [3]).1 [1, 2]).2) ∧
    ((buildList (Heap.empty : Heap Nat) [1, 2]).2.len ≠
      (buildList (buildList (Heap.empty : Heap Nat) [3]).1 [1, 2]).2.len →
      eqImpl (buildList (Heap.empty : Heap Nat) [1, 2]).1
        (buildList (Heap.empty : Heap Nat) [1, 2]).2
        (buildList (buildList (Heap.empty : Heap Nat) [3]).1 [1, 2]).1
        (buildList (buildList (Heap.empty : Heap Nat) [3]).1 [1, 2]).2 = false) :=
  c9_eq_and_hash_agree _ _ _ _ (by decide) (by decide)

/-- C10. A cursor freshly obtained from `cursor_mut` starts at the ghost
position, on any list: before any `move_next`/`move_prev`, `current`
returns no value and `index` returns no value. -/
theorem c10_fresh_cursor_is_ghost (h : Heap α) (l : LinkedList) :
    cursorMut l = (none, none) ∧ current h (cursorMut l).1 = none ∧
    indexFn (cursorMut l).2 = none :=
  ⟨rfl, rfl, rfl⟩

/-- C5. Over any interleaving `cs` of `next`/`next_back` calls on a
well-formed list: the borrowing iterator (`Iter`; `IterMut` has the
identical bodies) and the consuming iterator (`IntoIter`) never fail, the
front-yields, the remaining elements and the reversed back-yields always
partition the original sequence (so each element is yielded exactly once
and the two ends never yield the same node twice, also for a single-node
list), `size_hint` is `(r, some r)` with `r` exactly the number of
elements not yet yielded, decreasing by one per yield, and once the ends
have met (`len = 0`, which happens exactly when all elements are yielded)
every further call returns no value and changes nothing. -/
theorem c5_iterator_family {α : Type} (h : Heap α) (l : LinkedList)
    (cs : List Bool) (hwf : listWf h l = true) :
    (∃ fys bys it2, runIter h (iterOf l) cs = some (fys, bys, it2) ∧
      fys ++ iterElems h it2 ++ bys.reverse = toList h l ∧
      Iter.sizeHint it2 =
        ((iterElems h it2).length, some (iterElems h it2).length) ∧
      it2.len = l.len - cs.length ∧
      (l.len ≤ cs.length → iterElems h it2 = [] ∧
        fys ++ bys.reverse = toList h l) ∧
      (it2.len = 0 → Iter.next h it2 = some (none, it2) ∧
        Iter.nextBack h it2 = some (none, it2))) ∧
    (∃ fys bys h2 l2, runIntoIter h l cs = some (fys, bys, h2, l2) ∧
      fys ++ toList h2 l2 ++ bys.reverse = toList h l ∧
      intoIterSizeHint l2 =
        ((toList h2 l2).length, some (toList h2 l2).length) ∧
      l2.len = l.len - cs.length ∧
      (l.len ≤ cs.length → toList h2 l2 = [] ∧
        fys ++ bys.reverse = toList h l) ∧
      (l2.len = 0 → popFront h2 l2 = some (none, h2, l2) ∧
        popBack h2 l2 = some (none, h2, l2))) := by
  have helit : iterElems h (iterOf l) = toList h l := rfl
  constructor
  · obtain ⟨fys, bys, it2, p2, hrun, hwf2, hcat, hlen⟩ :=
      runIter_spec cs (iterOf l) none (listWf_iterOf hwf)
    have hlen2 : (iterElems h it2).length = it2.len := iterElems_length hwf2
    refine ⟨fys, bys, it2, hrun, by rw [← helit]; exact hcat, ?_, hlen, ?_, ?_⟩
    · rw [hlen2]; rfl
    · intro hle
      have h0 : it2.len = 0 := by
        rw [hlen]
        show (iterOf l).len - cs.length = 0
        have : (iterOf l).len = l.len := rfl
        omega
      have hnil : iterElems h it2 = [] := by
        have := hlen2
        rw [h0] at this
        exact List.length_eq_zero.mp this
      refine ⟨hnil, ?_⟩
      rw [← helit, ← hcat, hnil]
      simp
    · intro h0
      exact ⟨iter_next_zero h0, iter_nextBack_zero h0⟩
  · obtain ⟨fys, bys, h2, l2, hrun, hwf2, hcat, hlen⟩ :=
      runIntoIter_spec cs h l hwf
    have hlen2 : (toList h2 l2).length = l2.len := toList_length hwf2
    refine ⟨fys, bys, h2, l2, hrun, hcat, ?_, hlen, ?_, ?_⟩
    · rw [intoIterSizeHint, hlen2]
    · intro hle
      have h0 : l2.len = 0 := by omega
      have hnil : toList h2 l2 = [] := by
        have := hlen2
        rw [h0] at this
        exact List.length_eq_zero.mp this
      refine ⟨hnil, ?_⟩
      rw [← hcat, hnil]
      simp
    · intro h0
      exact pop_empty hwf2 h0

/-- Witness for C5: the list `[5]` with the interleaving
`[next, next_back]` (the single node is yielded once, the second call
yields nothing). -/
theorem c5_witness :
    (∃ fys bys it2, runIter (buildList (Heap.empty : Heap Nat) [5]).1
        (iterOf (buildList (Heap.empty : Heap Nat) [5]).2) [true, false] =
        some (fys, bys, it2) ∧
      fys ++ iterElems (buildList (Heap.empty : Heap Nat) [5]).1 it2 ++
          bys.reverse =
        toList (buildList (Heap.empty : Heap Nat) [5]).1
          (buildList (Heap.empty : Heap Nat) [5]).2 ∧
      Iter.sizeHint it2 =
        ((iterElems (buildList (Heap.empty : Heap Nat) [5]).1 it2).length,
          some (iterElems (buildList (Heap.empty : Heap Nat) [5]).1 it2).length) ∧
      it2.len = (buildList (Heap.empty : Heap Nat) [5]).2.len -
        ([true, false] : List Bool).length ∧
      ((buildList (Heap.empty : Heap Nat) [5]).2.len ≤
          ([true, false] : List Bool).length →
        iterElems (buildList (Heap.empty : Heap Nat) [5]).1 it2 = [] ∧
        fys ++ bys.reverse = toList (buildList (Heap.empty : Heap Nat) [5]).1
          (buildList (Heap.empty : Heap Nat) [5]).2) ∧
      (it2.len = 0 →
        Iter.next (buildList (Heap.empty : Heap Nat) [5]).1 it2 =
          some (none, it2) ∧
        Iter.nextBack (buildList (Heap.empty : Heap Nat) [5]).1 it2 =
          some (none, it2))) ∧
    (∃ fys bys h2 l2, runIntoIter (buildList (Heap.empty : Heap Nat) [5]).1
        (buildList (Heap.empty : Heap Nat) [5]).2 [true, false] =
        some (fys, bys, h2, l2) ∧
      fys ++ toList h2 l2 ++ bys.reverse =
        toList (buildList (Heap.empty : Heap Nat) [5]).1
          (buildList (Heap.empty : Heap Nat) [5]).2 ∧
      intoIterSizeHint l2 =
        ((toList h2 l2).length, some (toList h2 l2).length) ∧
      l2.len = (buildList (Heap.empty : Heap Nat) [5]).2.len -
        ([true, false] : List Bool).length ∧
      ((buildList (Heap.empty : Heap Nat) [5]).2.len ≤
          ([true, false] : List Bool).length →
        toList h2 l2 = [] ∧
        fys ++ bys.reverse = toList (buildList (Heap.empty : Heap Nat) [5]).1
          (buildList (Heap.empty : Heap Nat) [5]).2) ∧
      (l2.len = 0 → popFront h2 l2 = some (none, h2, l2) ∧
        popBack h2 l2 = some (none, h2, l2))) :=
  c5_iterator_family (buildList (Heap.empty : Heap Nat) [5]).1
    (buildList (Heap.empty : Heap Nat) [5]).2 [true, false] (by decide)

end Sixth
